import Mathlib

/-!
Shallow embedding of the numeric kernels of the PythonHPC notebooks
(`src/cython/notebooks/Cython1.ipynb`,
`src/numba/simple/euclidean-distance-matrix-numba.jit.ipynb`,
`src/numba/simple/cityblock-distance-matrix-numba.jit.ipynb`).

Machine floating-point arithmetic is modelled by exact rational arithmetic
(`ℚ`); dense 2-D arrays are modelled as total functions `ℕ → ℕ → α`
together with explicit shape parameters, and the imperative
`for i: for j: out[i][j] = ...` fill loops are modelled as left folds over
`List.range` updating such a function, so that uninitialised memory
(`np.empty`) can be represented by an arbitrary initial function.
Fallible Python code (raising exceptions) is modelled with `Except`.
-/

namespace PythonHPC

/-- Functional update of a 2-D array at position `(i, j)`:
models the single store `M[i][j] = v`. -/
def updMat {α : Type} (M : ℕ → ℕ → α) (i j : ℕ) (v : α) : ℕ → ℕ → α :=
  fun a b => if a = i ∧ b = j then v else M a b

/-- The doubly nested fill loop
`for i in range(rows): for j in range(cols): M[i][j] = g(i, j)`
run on an array whose initial contents are `M0`. -/
def fillMatrix {α : Type} (rows cols : ℕ) (g : ℕ → ℕ → α)
    (M0 : ℕ → ℕ → α) : ℕ → ℕ → α :=
  (List.range rows).foldl
    (fun M i => (List.range cols).foldl (fun M j => updMat M i j (g i j)) M)
    M0

/-! ### Distance-matrix kernels (numba notebooks)

`x` and `y` are matrices of shape `(N, m)` (`num_samples = N`,
`num_feat = m`); entries are reached as `x[i][k]`, modelled `x i k`. -/

/-- Embedding of `euclidean_numba1` from
`euclidean-distance-matrix-numba.jit.ipynb`:
`dist_matrix = np.zeros((N, N))`, then for each `i, j < N` the inner loop
accumulates `r += (x[i][k] - y[j][k])**2` over `k < m` and stores
`dist_matrix[i][j] = r`.  The `numba.jit` / `numba.prange` annotations do
not change the sequential semantics. -/
def euclidean_numba1 (N m : ℕ) (x y : ℕ → ℕ → ℚ) : ℕ → ℕ → ℚ :=
  fillMatrix N N
    (fun i j => (List.range m).foldl (fun r k => r + (x i k - y j k) ^ 2) 0)
    (fun _ _ => 0)

/-- Embedding of `euclidean_numpy` from the same notebook:
`x2 = einsum('ij,ij->i', x, x)`, `y2 = einsum('ij,ij->i', y, y)`,
`xy = dot(x, y.T)`, result `np.abs(x2 + y2 - 2.*xy)`; entry `(i, j)` of
the `(N, N)` result is `|Σ_k x[i][k]² + Σ_k y[j][k]² - 2 Σ_k x[i][k]·y[j][k]|`. -/
def euclidean_numpy (m : ℕ) (x y : ℕ → ℕ → ℚ) : ℕ → ℕ → ℚ :=
  fun i j =>
    |(List.range m).foldl (fun s k => s + x i k * x i k) 0
      + (List.range m).foldl (fun s k => s + y j k * y j k) 0
      - 2 * (List.range m).foldl (fun s k => s + x i k * y j k) 0|

/-- Embedding of `cityblock_python` from
`cityblock-distance-matrix-numba.jit.ipynb`:
`dist_matrix = np.empty((N, N))` (uninitialised contents `M0`), then for
each `i, j < N` the inner loop accumulates `r += np.abs(x[i][k] - y[j][k])`
over `k < m` and stores `dist_matrix[i][j] = r`. -/
def cityblock_python (N m : ℕ) (x y : ℕ → ℕ → ℚ) (M0 : ℕ → ℕ → ℚ) :
    ℕ → ℕ → ℚ :=
  fillMatrix N N
    (fun i j => (List.range m).foldl (fun r k => r + |x i k - y j k|) 0)
    M0

/-- Embedding of `cityblock_numba1` from the same notebook: identical loop
body to `cityblock_python`, under `numba.jit` with the inner reduction in
`numba.prange` (which preserves the sequential result). -/
def cityblock_numba1 (N m : ℕ) (x y : ℕ → ℕ → ℚ) (M0 : ℕ → ℕ → ℚ) :
    ℕ → ℕ → ℚ :=
  fillMatrix N N
    (fun i j => (List.range m).foldl (fun r k => r + |x i k - y j k|) 0)
    M0

/-! ### Julia set kernel (Cython1.ipynb) -/

/-- One pass of the loop body of `julia_set_cython`:
`x, y = x*x - y*y + cx, 2.0*x*y + cy` (simultaneous assignment). -/
def juliaStep (cx cy : ℚ) (p : ℚ × ℚ) : ℚ × ℚ :=
  (p.1 * p.1 - p.2 * p.2 + cx, 2 * p.1 * p.2 + cy)

/-- The inner `while x*x + y*y < radius2 and k < iter_max` loop of
`julia_set_cython`, starting at `k = 0` from point `p`, with `n` the
remaining iteration budget `iter_max - k`; returns the final value of `k`
minus its initial value, i.e. the number of passes executed. -/
def juliaLoop (cx cy radius2 : ℚ) : ℕ → ℚ × ℚ → ℕ
  | 0, _ => 0
  | n + 1, p =>
    if p.1 * p.1 + p.2 * p.2 < radius2 then
      juliaLoop cx cy radius2 n (juliaStep cx cy p) + 1
    else 0

/-- Embedding of `julia_set_cython` from `Cython1.ipynb`: for each cell
`(i, j)` of the `(ny, nx)` grids `X`, `Y`, runs the escape-time while loop
from `(X[i,j], Y[i,j])` and stores the resulting count in `julia[i][j]`.
`julia0` is the prior contents of the output array `julia`. -/
def julia_set_cython (ny nx : ℕ) (X Y : ℕ → ℕ → ℚ) (cx cy : ℚ)
    (iter_max : ℕ) (radius2 : ℚ) (julia0 : ℕ → ℕ → ℕ) : ℕ → ℕ → ℕ :=
  fillMatrix ny nx
    (fun i j => juliaLoop cx cy radius2 iter_max (X i j, Y i j))
    julia0

/-! ### Monte Carlo pi (Cython1.ipynb) -/

/-- Embedding of `pi_mc`: the random source is a sequence `rand` of draws,
consumed in order (`x, y = random(), random()` at loop index `i` reads
`rand (2*i)` and `rand (2*i+1)`).  `for i in range(n)` is empty for
`n ≤ 0`; `4.0 * in_circle / n` raises ZeroDivisionError exactly when
`n = 0`. -/
def pi_mc (n : ℤ) (rand : ℕ → ℚ) : Except String ℚ :=
  let in_circle : ℕ :=
    (List.range n.toNat).foldl
      (fun c i =>
        if (rand (2 * i)) ^ 2 + (rand (2 * i + 1)) ^ 2 ≤ 1 then c + 1 else c)
      0
  if n = 0 then Except.error "ZeroDivisionError: float division by zero"
  else Except.ok (4 * (in_circle : ℚ) / (n : ℚ))

/-! ### CyRangeVector (Cython1.ipynb), malloc-backed and C++-vector variants -/

/-- The malloc-backed `CyRangeVector`: a `size` field and the `int*`
buffer contents. -/
structure CyRangeVectorMalloc where
  size : ℤ
  data : List ℤ

/-- Embedding of the malloc variant's `__cinit__(self, start, end)`:
raises when `start >= end`, otherwise sets `size = end - start`,
allocates, and stores `data[i - start] = i` for `i` in `range(start, end)`
(for `0 ≤ start`; the C-level unsigned-index behaviour on negative `start`
is outside the model). -/
def CyRangeVectorMalloc.cinit (start stop : ℤ) :
    Except String CyRangeVectorMalloc :=
  if start ≥ stop then
    Except.error (toString start ++ " >= " ++ toString stop)
  else
    Except.ok ⟨stop - start,
      (List.range (stop - start).toNat).map (fun (i : ℕ) => start + (i : ℤ))⟩

/-- Embedding of the malloc variant's `__getitem__(self, i)`:
`if i >= self.size or i < 0: return -1` else `return self.data[i]`. -/
def CyRangeVectorMalloc.getitem (v : CyRangeVectorMalloc) (i : ℤ) : ℤ :=
  if i ≥ v.size ∨ i < 0 then -1 else v.data.getD i.toNat 0

/-- The C++-vector-backed `CyRangeVector`: just the `vector[int]` contents. -/
structure CyRangeVectorCpp where
  data : List ℤ

/-- Embedding of the C++-vector variant's `__cinit__(self, start, end)`:
raises when `start >= end`, otherwise pushes back `i` for `i` in
`range(start, end)`. -/
def CyRangeVectorCpp.cinit (start stop : ℤ) :
    Except String CyRangeVectorCpp :=
  if start ≥ stop then
    Except.error (toString start ++ " >= " ++ toString stop)
  else
    Except.ok ⟨(List.range (stop - start).toNat).map (fun (i : ℕ) => start + (i : ℤ))⟩

/-- Embedding of the C++-vector variant's `__getitem__(self, i)`:
`if i >= self.data.size() or i < 0: return None` else `return self.data[i]`. -/
def CyRangeVectorCpp.getitem (v : CyRangeVectorCpp) (i : ℤ) : Option ℤ :=
  if i ≥ (v.data.length : ℤ) ∨ i < 0 then none
  else some (v.data.getD i.toNat 0)

/-! ### Loop lemmas -/

/-- Accumulating `r += f k` over `k in range m` starting from `c` computes
`c` plus the sum of `f` over `range m`. -/
lemma foldl_add_range (m : ℕ) (f : ℕ → ℚ) (c : ℚ) :
    (List.range m).foldl (fun r k => r + f k) c
      = c + ∑ k ∈ Finset.range m, f k := by
  induction m generalizing c with
  | zero => simp
  | succ n ih =>
      rw [List.range_succ, List.foldl_append, List.foldl_cons, List.foldl_nil,
        ih, Finset.sum_range_succ]
      ring

/-- Reading back a single functional store. -/
lemma updMat_apply {α : Type} (M : ℕ → ℕ → α) (i j : ℕ) (v : α) (a b : ℕ) :
    updMat M i j v a b = if a = i ∧ b = j then v else M a b := rfl

/-- A single row of the fill loop, read back pointwise. -/
lemma foldl_row_apply {α : Type} (g : ℕ → ℕ → α) (i : ℕ) :
    ∀ (n : ℕ) (M : ℕ → ℕ → α) (a b : ℕ),
      ((List.range n).foldl (fun M j => updMat M i j (g i j)) M) a b
        = if a = i ∧ b < n then g i b else M a b := by
  intro n
  induction n with
  | zero => intro M a b; simp
  | succ n ih =>
      intro M a b
      rw [List.range_succ, List.foldl_append, List.foldl_cons, List.foldl_nil]
      show updMat ((List.range n).foldl (fun M j => updMat M i j (g i j)) M)
        i n (g i n) a b = _
      rw [updMat_apply, ih]
      by_cases ha : a = i
      · subst ha
        by_cases hb : b = n
        · subst hb; simp
        · by_cases hb' : b < n
          · simp [hb, hb', Nat.lt_succ_of_lt hb']
          · have hb'' : ¬ b < n + 1 := by omega
            simp [hb, hb', hb'']
      · simp [ha]

/-- The full doubly nested fill loop, read back pointwise. -/
lemma foldl_fill_apply {α : Type} (cols : ℕ) (g : ℕ → ℕ → α) :
    ∀ (n : ℕ) (M : ℕ → ℕ → α) (a b : ℕ),
      ((List.range n).foldl
          (fun M i =>
            (List.range cols).foldl (fun M j => updMat M i j (g i j)) M) M) a b
        = if a < n ∧ b < cols then g a b else M a b := by
  intro n
  induction n with
  | zero => intro M a b; simp
  | succ n ih =>
      intro M a b
      rw [List.range_succ, List.foldl_append, List.foldl_cons, List.foldl_nil,
        foldl_row_apply, ih]
      by_cases ha : a = n
      · subst ha
        by_cases hb : b < cols
        · simp [hb, Nat.lt_irrefl]
        · simp [hb]
      · by_cases ha' : a < n
        · have h1 : a < n + 1 := by omega
          simp [ha, ha', h1]
        · have h1 : ¬ a < n + 1 := by omega
          simp [ha, ha', h1]

/-- `fillMatrix` computes `g` inside the fill region and leaves the initial
contents elsewhere. -/
lemma fillMatrix_apply {α : Type} (rows cols : ℕ) (g : ℕ → ℕ → α)
    (M0 : ℕ → ℕ → α) (a b : ℕ) :
    fillMatrix rows cols g M0 a b
      = if a < rows ∧ b < cols then g a b else M0 a b :=
  foldl_fill_apply cols g rows M0 a b

/-! ### Entry characterizations of the distance kernels -/

/-- Inside the fill region, `euclidean_numba1` computes the row-pair sum of
squared differences. -/
lemma euclidean_numba1_entry (N m : ℕ) (x y : ℕ → ℕ → ℚ) (i j : ℕ)
    (hi : i < N) (hj : j < N) :
    euclidean_numba1 N m x y i j
      = ∑ k ∈ Finset.range m, (x i k - y j k) ^ 2 := by
  show fillMatrix N N _ _ i j = _
  rw [fillMatrix_apply, if_pos ⟨hi, hj⟩]
  exact (foldl_add_range m (fun k => (x i k - y j k) ^ 2) 0).trans (zero_add _)

/-- Inside the fill region, `cityblock_numba1` computes the row-pair sum of
absolute differences, whatever the initial contents of the output array. -/
lemma cityblock_numba1_entry (N m : ℕ) (x y : ℕ → ℕ → ℚ) (M0 : ℕ → ℕ → ℚ)
    (i j : ℕ) (hi : i < N) (hj : j < N) :
    cityblock_numba1 N m x y M0 i j
      = ∑ k ∈ Finset.range m, |x i k - y j k| := by
  show fillMatrix N N _ _ i j = _
  rw [fillMatrix_apply, if_pos ⟨hi, hj⟩]
  exact (foldl_add_range m (fun k => |x i k - y j k|) 0).trans (zero_add _)

/-- Inside the fill region, `cityblock_python` computes the row-pair sum of
absolute differences, whatever the initial contents of the output array. -/
lemma cityblock_python_entry (N m : ℕ) (x y : ℕ → ℕ → ℚ) (M0 : ℕ → ℕ → ℚ)
    (i j : ℕ) (hi : i < N) (hj : j < N) :
    cityblock_python N m x y M0 i j
      = ∑ k ∈ Finset.range m, |x i k - y j k| := by
  show fillMatrix N N _ _ i j = _
  rw [fillMatrix_apply, if_pos ⟨hi, hj⟩]
  exact (foldl_add_range m (fun k => |x i k - y j k|) 0).trans (zero_add _)

/-- Every entry of `euclidean_numpy` is the absolute value of
`Σ x² + Σ y² - 2 Σ xy` over the feature index. -/
lemma euclidean_numpy_entry (m : ℕ) (x y : ℕ → ℕ → ℚ) (i j : ℕ) :
    euclidean_numpy m x y i j
      = |∑ k ∈ Finset.range m, x i k * x i k
          + ∑ k ∈ Finset.range m, y j k * y j k
          - 2 * ∑ k ∈ Finset.range m, x i k * y j k| := by
  show |_| = _
  rw [(foldl_add_range m (fun k => x i k * x i k) 0).trans (zero_add _),
    (foldl_add_range m (fun k => y j k * y j k) 0).trans (zero_add _),
    (foldl_add_range m (fun k => x i k * y j k) 0).trans (zero_add _)]

/-- C3: For every pair of matrices `x`, `y` of shape `(N, m)` and all
`i, j < N`, `euclidean_numba1 x y` stores at `(i, j)` the sum over `k < m`
of `(x[i][k] - y[j][k])²`, and `cityblock_numba1 x y` stores the sum over
`k < m` of `|x[i][k] - y[j][k]|`. -/
theorem distance_entries_formula (N m : ℕ) (x y : ℕ → ℕ → ℚ)
    (M0 : ℕ → ℕ → ℚ) (i j : ℕ) (hi : i < N) (hj : j < N) :
    euclidean_numba1 N m x y i j
        = ∑ k ∈ Finset.range m, (x i k - y j k) ^ 2
      ∧ cityblock_numba1 N m x y M0 i j
        = ∑ k ∈ Finset.range m, |x i k - y j k| :=
  ⟨euclidean_numba1_entry N m x y i j hi hj,
    cityblock_numba1_entry N m x y M0 i j hi hj⟩

/-- Witness for C3 at `N = 2`, `m = 2`, constant matrices. -/
theorem distance_entries_formula_witness :
    euclidean_numba1 2 2 (fun _ _ => 3) (fun _ _ => 1) 1 0
        = ∑ _k ∈ Finset.range 2, ((3 : ℚ) - 1) ^ 2
      ∧ cityblock_numba1 2 2 (fun _ _ => 3) (fun _ _ => 1) (fun _ _ => 9) 1 0
        = ∑ _k ∈ Finset.range 2, |(3 : ℚ) - 1| :=
  distance_entries_formula 2 2 (fun _ _ => 3) (fun _ _ => 1) (fun _ _ => 9)
    1 0 (by decide) (by decide)

/-- C1: under exact rational arithmetic, the optimized kernels agree
entrywise with their naive baselines on the whole `(N, N)` output:
`euclidean_numba1 x y` with `euclidean_numpy x y`, and
`cityblock_numba1 x y` with `cityblock_python x y` (the latter for any
contents `M0`, `M0'` of the two uninitialised output buffers). -/
theorem optimized_kernels_agree_baseline (N m : ℕ) (x y : ℕ → ℕ → ℚ)
    (M0 M0' : ℕ → ℕ → ℚ) (i j : ℕ) (hi : i < N) (hj : j < N) :
    euclidean_numba1 N m x y i j = euclidean_numpy m x y i j
      ∧ cityblock_numba1 N m x y M0 i j
        = cityblock_python N m x y M0' i j := by
  constructor
  · rw [euclidean_numba1_entry N m x y i j hi hj, euclidean_numpy_entry]
    have hsum : ∑ k ∈ Finset.range m, x i k * x i k
          + ∑ k ∈ Finset.range m, y j k * y j k
          - 2 * ∑ k ∈ Finset.range m, x i k * y j k
        = ∑ k ∈ Finset.range m, (x i k - y j k) ^ 2 := by
      rw [Finset.mul_sum, ← Finset.sum_add_distrib, ← Finset.sum_sub_distrib]
      exact Finset.sum_congr rfl (fun k _ => by ring)
    rw [hsum, abs_of_nonneg (Finset.sum_nonneg (fun k _ => sq_nonneg _))]
  · rw [cityblock_numba1_entry N m x y M0 i j hi hj,
      cityblock_python_entry N m x y M0' i j hi hj]

/-- Witness for C1 at `N = 1`, `m = 1`, constant matrices and distinct
uninitialised buffer contents. -/
theorem optimized_kernels_agree_baseline_witness :
    euclidean_numba1 1 1 (fun _ _ => 2) (fun _ _ => 5) 0 0
        = euclidean_numpy 1 (fun _ _ => 2) (fun _ _ => 5) 0 0
      ∧ cityblock_numba1 1 1 (fun _ _ => 2) (fun _ _ => 5) (fun _ _ => 9) 0 0
        = cityblock_python 1 1 (fun _ _ => 2) (fun _ _ => 5) (fun _ _ => 7)
            0 0 :=
  optimized_kernels_agree_baseline 1 1 (fun _ _ => 2) (fun _ _ => 5)
    (fun _ _ => 9) (fun _ _ => 7) 0 0 (by decide) (by decide)

/-! ### Julia loop characterization -/

/-- Squared norm `x*x + y*y` tested by the while-loop condition. -/
def normSq (p : ℚ × ℚ) : ℚ := p.1 * p.1 + p.2 * p.2

/-- The while loop with fuel `n` returns the least index `k` at which the
orbit of `p` under `juliaStep` escapes (`radius2 ≤ normSq`), capped at `n`
when no such `k < n` exists. -/
lemma juliaLoop_eq_find (cx cy radius2 : ℚ) :
    ∀ (n : ℕ) (p : ℚ × ℚ),
      juliaLoop cx cy radius2 n p
        = if h : ∃ k, k < n ∧ radius2 ≤ normSq ((juliaStep cx cy)^[k] p)
          then Nat.find h else n := by
  intro n
  induction n with
  | zero =>
      intro p
      rw [dif_neg]
      · rfl
      · rintro ⟨k, hk, -⟩
        omega
  | succ n ih =>
      intro p
      show (if p.1 * p.1 + p.2 * p.2 < radius2 then
          juliaLoop cx cy radius2 n (juliaStep cx cy p) + 1 else 0) = _
      by_cases h0 : p.1 * p.1 + p.2 * p.2 < radius2
      · rw [if_pos h0, ih]
        by_cases h1 : ∃ k, k < n
            ∧ radius2 ≤ normSq ((juliaStep cx cy)^[k] (juliaStep cx cy p))
        · have houter : ∃ k, k < n + 1
              ∧ radius2 ≤ normSq ((juliaStep cx cy)^[k] p) := by
            obtain ⟨k, hk, hesc⟩ := h1
            exact ⟨k + 1, by omega, by rwa [Function.iterate_succ_apply]⟩
          rw [dif_pos h1, dif_pos houter]
          symm
          rw [Nat.find_eq_iff]
          refine ⟨⟨by have := (Nat.find_spec h1).1; omega, ?_⟩, ?_⟩
          · rw [Function.iterate_succ_apply]
            exact (Nat.find_spec h1).2
          · intro k hk
            match k with
            | 0 =>
                rintro ⟨-, habs⟩
                exact absurd h0 (not_lt.mpr habs)
            | j + 1 =>
                rintro ⟨hlt, habs⟩
                rw [Function.iterate_succ_apply] at habs
                exact Nat.find_min h1 (by omega) ⟨by omega, habs⟩
        · have houter : ¬ ∃ k, k < n + 1
              ∧ radius2 ≤ normSq ((juliaStep cx cy)^[k] p) := by
            rintro ⟨k, hk, hesc⟩
            match k with
            | 0 => exact absurd h0 (not_lt.mpr hesc)
            | j + 1 =>
                rw [Function.iterate_succ_apply] at hesc
                exact h1 ⟨j, by omega, hesc⟩
          rw [dif_neg h1, dif_neg houter]
      · rw [if_neg h0]
        have hex : ∃ k, k < n + 1
            ∧ radius2 ≤ normSq ((juliaStep cx cy)^[k] p) :=
          ⟨0, by omega, le_of_not_lt h0⟩
        rw [dif_pos hex]
        symm
        rw [Nat.find_eq_zero]
        exact ⟨by omega, le_of_not_lt h0⟩

/-- C2: after `julia_set_cython`, every cell `(i, j)` of the output grid
holds the least `k` at which the `k`-th iterate of
`(x, y) := (x*x - y*y + cx, 2*x*y + cy)` from `(X[i,j], Y[i,j])` satisfies
`x*x + y*y ≥ radius2`, capped at `iter_max` when no such `k < iter_max`
exists. -/
theorem julia_set_cython_counts_least_escape (ny nx : ℕ) (X Y : ℕ → ℕ → ℚ)
    (cx cy : ℚ) (iter_max : ℕ) (radius2 : ℚ) (julia0 : ℕ → ℕ → ℕ)
    (i j : ℕ) (hi : i < ny) (hj : j < nx) :
    julia_set_cython ny nx X Y cx cy iter_max radius2 julia0 i j
      = if h : ∃ k, k < iter_max
            ∧ radius2 ≤ normSq ((juliaStep cx cy)^[k] (X i j, Y i j))
        then Nat.find h else iter_max := by
  show fillMatrix ny nx _ _ i j = _
  rw [fillMatrix_apply, if_pos ⟨hi, hj⟩]
  exact juliaLoop_eq_find cx cy radius2 iter_max (X i j, Y i j)

/-- Witness for C2 on a 1×1 grid starting at the origin with `cx = cy = 0`:
the orbit never escapes, so the count is the cap. -/
theorem julia_set_cython_counts_least_escape_witness :
    julia_set_cython 1 1 (fun _ _ => 0) (fun _ _ => 0) 0 0 3 1
        (fun _ _ => 99) 0 0 = 3 := by
  rw [julia_set_cython_counts_least_escape 1 1 (fun _ _ => 0) (fun _ _ => 0)
    0 0 3 1 (fun _ _ => 99) 0 0 (by decide) (by decide)]
  refine dif_neg ?_
  have hfix : juliaStep 0 0 ((0 : ℚ), (0 : ℚ)) = ((0 : ℚ), (0 : ℚ)) := by
    norm_num [juliaStep]
  rintro ⟨k, -, habs⟩
  rw [Function.iterate_fixed hfix k] at habs
  norm_num [normSq] at habs

/-- C8: the fractal kernel is deterministic: two runs on grids and
parameters that agree (and arbitrary prior contents of the two output
buffers) produce the same count at every grid cell. -/
theorem julia_set_cython_deterministic (ny nx : ℕ)
    (X Y X2 Y2 : ℕ → ℕ → ℚ) (cx cy : ℚ) (iter_max : ℕ) (radius2 : ℚ)
    (julia0 julia0' : ℕ → ℕ → ℕ)
    (hX : ∀ i j, i < ny → j < nx → X i j = X2 i j)
    (hY : ∀ i j, i < ny → j < nx → Y i j = Y2 i j)
    (i j : ℕ) (hi : i < ny) (hj : j < nx) :
    julia_set_cython ny nx X Y cx cy iter_max radius2 julia0 i j
      = julia_set_cython ny nx X2 Y2 cx cy iter_max radius2 julia0' i j := by
  show fillMatrix ny nx _ _ i j = fillMatrix ny nx _ _ i j
  rw [fillMatrix_apply, fillMatrix_apply, if_pos ⟨hi, hj⟩, if_pos ⟨hi, hj⟩,
    hX i j hi hj, hY i j hi hj]

/-- Witness for C8 on a 1×1 grid with differing prior output contents. -/
theorem julia_set_cython_deterministic_witness :
    julia_set_cython 1 1 (fun _ _ => 2) (fun _ _ => 0) 0 0 5 4
        (fun _ _ => 11) 0 0
      = julia_set_cython 1 1 (fun _ _ => 2) (fun _ _ => 0) 0 0 5 4
          (fun _ _ => 77) 0 0 :=
  julia_set_cython_deterministic 1 1 (fun _ _ => 2) (fun _ _ => 0)
    (fun _ _ => 2) (fun _ _ => 0) 0 0 5 4 (fun _ _ => 11) (fun _ _ => 77)
    (fun _ _ _ _ => rfl) (fun _ _ _ _ => rfl) 0 0 (by decide) (by decide)

/-- C9: the kernels are total; in particular the inner while loop of
`julia_set_cython` executes at most `iter_max` passes (each pass increments
`k` and the loop condition requires `k < iter_max`), so every output cell
is bounded by `iter_max` or its prior contents.  (`pi_mc` and the distance
kernels are folds over finite ranges, hence total by construction in this
embedding.) -/
theorem julia_kernels_terminate (cx cy radius2 : ℚ) (iter_max : ℕ)
    (p : ℚ × ℚ) (ny nx : ℕ) (X Y : ℕ → ℕ → ℚ) (julia0 : ℕ → ℕ → ℕ)
    (i j : ℕ) :
    juliaLoop cx cy radius2 iter_max p ≤ iter_max
      ∧ julia_set_cython ny nx X Y cx cy iter_max radius2 julia0 i j
          ≤ max iter_max (julia0 i j) := by
  have hloop : ∀ (n : ℕ) (q : ℚ × ℚ), juliaLoop cx cy radius2 n q ≤ n := by
    intro n
    induction n with
    | zero => intro q; exact le_refl 0
    | succ n ih =>
        intro q
        show (if q.1 * q.1 + q.2 * q.2 < radius2 then
            juliaLoop cx cy radius2 n (juliaStep cx cy q) + 1 else 0) ≤ n + 1
        split
        · exact Nat.succ_le_succ (ih _)
        · exact Nat.zero_le _
  refine ⟨hloop iter_max p, ?_⟩
  show fillMatrix ny nx _ _ i j ≤ _
  rw [fillMatrix_apply]
  split
  · exact le_trans (hloop iter_max _) (le_max_left _ _)
  · exact le_max_right _ _

/-! ### Monte Carlo pi -/

/-- The sampling loop of `pi_mc` counts the loop indices whose drawn pair
lands inside the unit quarter circle. -/
lemma pi_mc_count (rand : ℕ → ℚ) :
    ∀ (n c : ℕ),
      (List.range n).foldl
          (fun c i =>
            if (rand (2 * i)) ^ 2 + (rand (2 * i + 1)) ^ 2 ≤ 1 then c + 1
            else c) c
        = c + ((Finset.range n).filter
            (fun i => (rand (2 * i)) ^ 2 + (rand (2 * i + 1)) ^ 2 ≤ 1)).card := by
  intro n
  induction n with
  | zero => intro c; simp
  | succ n ih =>
      intro c
      rw [List.range_succ, List.foldl_append, List.foldl_cons, List.foldl_nil,
        ih c, Finset.range_succ, Finset.filter_insert]
      by_cases hp : (rand (2 * n)) ^ 2 + (rand (2 * n + 1)) ^ 2 ≤ 1
      · rw [if_pos hp, if_pos hp,
          Finset.card_insert_of_not_mem (by simp)]
        omega
      · rw [if_neg hp, if_neg hp]

/-- The sampling loop of `pi_mc` reads only the first `2 * n` draws. -/
lemma pi_mc_foldl_congr (rand rand' : ℕ → ℚ) :
    ∀ (n : ℕ), (∀ k, k < 2 * n → rand k = rand' k) → ∀ (c : ℕ),
      (List.range n).foldl
          (fun c i =>
            if (rand (2 * i)) ^ 2 + (rand (2 * i + 1)) ^ 2 ≤ 1 then c + 1
            else c) c
        = (List.range n).foldl
            (fun c i =>
              if (rand' (2 * i)) ^ 2 + (rand' (2 * i + 1)) ^ 2 ≤ 1 then c + 1
              else c) c := by
  intro n
  induction n with
  | zero => intro h c; simp
  | succ n ih =>
      intro h c
      simp only [List.range_succ, List.foldl_append, List.foldl_cons,
        List.foldl_nil]
      rw [ih (fun k hk => h k (by omega)) c, h (2 * n) (by omega),
        h (2 * n + 1) (by omega)]

/-- C4: for every `n ≥ 1` and every random stream, `pi_mc n` consumes
exactly the first `n` pairs of draws (its result is unchanged by any change
to later draws) and returns `4 * c / n` where `c` counts the drawn pairs
`(x, y)` with `x² + y² ≤ 1`. -/
theorem pi_mc_returns_ratio (n : ℤ) (hn : 1 ≤ n) (rand rand' : ℕ → ℚ)
    (hagree : ∀ k, k < 2 * n.toNat → rand k = rand' k) :
    pi_mc n rand
        = Except.ok (4 * (((Finset.range n.toNat).filter
              (fun i => (rand (2 * i)) ^ 2 + (rand (2 * i + 1)) ^ 2 ≤ 1)).card
            : ℚ) / (n : ℚ))
      ∧ pi_mc n rand = pi_mc n rand' := by
  have hne : ¬ (n = 0) := by omega
  constructor
  · simp only [pi_mc, if_neg hne]
    rw [pi_mc_count rand n.toNat 0, Nat.zero_add]
  · simp only [pi_mc, if_neg hne]
    rw [pi_mc_foldl_congr rand rand' n.toNat hagree 0]

/-- Witness for C4 at `n = 2` with the all-zero stream: both draws land
inside the quarter circle, so the estimate is `4 * 2 / 2 = 4`. -/
theorem pi_mc_returns_ratio_witness : pi_mc 2 (fun _ => 0) = Except.ok 4 := by
  have h := (pi_mc_returns_ratio 2 (by omega) (fun _ => 0) (fun _ => 0)
    (fun _ _ => rfl)).1
  rw [h, Finset.filter_true_of_mem (fun i _ => by norm_num)]
  norm_num
  show (4 : ℚ) * ((2 : ℕ) : ℚ) / 2 = 4
  norm_num

/-- C5 counterexample: `pi_mc (-1)` does not raise although `-1` is not
positive: the sampling loop is empty and the division succeeds, returning
`4 * 0 / (-1) = 0`. -/
theorem pi_mc_negative_no_error : pi_mc (-1) (fun _ => 0) = Except.ok 0 := by
  simp only [pi_mc]
  norm_num
  rfl

/-- C5 (amended): `pi_mc n` raises (a ZeroDivisionError, at the final
division) exactly when `n = 0`; for every other `n`, including negative
ones, it returns normally. -/
theorem pi_mc_error_iff_zero (n : ℤ) (rand : ℕ → ℚ) :
    (∃ e, pi_mc n rand = Except.error e) ↔ n = 0 := by
  simp only [pi_mc]
  by_cases h : n = 0
  · simp [h]
  · simp [h]

/-! ### CyRangeVector -/

/-- C6: in both variants, constructing a `CyRangeVector` raises
immediately if and only if the requested range is empty or inverted:
`__cinit__(start, end)` raises exactly when `start ≥ end` and succeeds
exactly when `start < end`. -/
theorem cyrangevector_cinit_ok_iff (start stop : ℤ) :
    ((∃ e, CyRangeVectorMalloc.cinit start stop = Except.error e)
        ↔ stop ≤ start)
      ∧ ((∃ v, CyRangeVectorMalloc.cinit start stop = Except.ok v)
        ↔ start < stop)
      ∧ ((∃ e, CyRangeVectorCpp.cinit start stop = Except.error e)
        ↔ stop ≤ start)
      ∧ ((∃ w, CyRangeVectorCpp.cinit start stop = Except.ok w)
        ↔ start < stop) := by
  by_cases h : start ≥ stop
  · have h' : ¬ start < stop := by omega
    simp [CyRangeVectorMalloc.cinit, CyRangeVectorCpp.cinit, h, h']
  · have h' : start < stop := by omega
    simp [CyRangeVectorMalloc.cinit, CyRangeVectorCpp.cinit, h, h']

/-- C7: for every `CyRangeVector` successfully constructed from
`(start, end)`, indexing with `i < 0` or `i ≥ end - start` returns the
variant's sentinel (`-1` for the malloc variant, `None` for the
C++-vector variant) instead of reading stored data. -/
theorem cyrangevector_out_of_range_sentinel (start stop : ℤ)
    (v : CyRangeVectorMalloc) (w : CyRangeVectorCpp) (i : ℤ)
    (hv : CyRangeVectorMalloc.cinit start stop = Except.ok v)
    (hw : CyRangeVectorCpp.cinit start stop = Except.ok w)
    (hi : i < 0 ∨ stop - start ≤ i) :
    v.getitem i = -1 ∧ w.getitem i = none := by
  by_cases h : start ≥ stop
  · rw [CyRangeVectorMalloc.cinit, if_pos h] at hv
    exact absurd hv (by simp)
  · rw [CyRangeVectorMalloc.cinit, if_neg h] at hv
    rw [CyRangeVectorCpp.cinit, if_neg h] at hw
    injection hv with hv
    injection hw with hw
    subst hv
    subst hw
    constructor
    · rw [CyRangeVectorMalloc.getitem]
      exact if_pos (by dsimp only; omega)
    · rw [CyRangeVectorCpp.getitem]
      refine if_pos ?_
      dsimp only
      rw [List.length_map, List.length_range]
      omega

/-- Witness for C7: the vector built from `(0, 2)` returns its sentinel at
index 5 in both variants. -/
theorem cyrangevector_out_of_range_sentinel_witness :
    CyRangeVectorMalloc.getitem ⟨2, [0, 1]⟩ 5 = -1
      ∧ CyRangeVectorCpp.getitem ⟨[0, 1]⟩ 5 = none :=
  cyrangevector_out_of_range_sentinel 0 2 ⟨2, [0, 1]⟩ ⟨[0, 1]⟩ 5
    (by rfl) (by rfl) (by decide)

/-- C10 (implicit): a `CyRangeVector` built from `0 ≤ start < end` holds
the consecutive integers `start, start+1, ..., end-1`: for every valid
index `0 ≤ i < end - start`, `__getitem__(i)` returns `start + i` in both
variants. -/
theorem cyrangevector_getitem_in_range (start stop : ℤ)
    (v : CyRangeVectorMalloc) (w : CyRangeVectorCpp) (i : ℤ)
    (hstart : 0 ≤ start)
    (hv : CyRangeVectorMalloc.cinit start stop = Except.ok v)
    (hw : CyRangeVectorCpp.cinit start stop = Except.ok w)
    (h0 : 0 ≤ i) (hi : i < stop - start) :
    v.getitem i = start + i ∧ w.getitem i = some (start + i) := by
  by_cases h : start ≥ stop
  · rw [CyRangeVectorMalloc.cinit, if_pos h] at hv
    exact absurd hv (by simp)
  · rw [CyRangeVectorMalloc.cinit, if_neg h] at hv
    rw [CyRangeVectorCpp.cinit, if_neg h] at hw
    injection hv with hv
    injection hw with hw
    subst hv
    subst hw
    have hlen : i.toNat <
        ((List.range (stop - start).toNat).map
          (fun (k : ℕ) => start + (k : ℤ))).length := by
      rw [List.length_map, List.length_range]
      omega
    have hget : ((List.range (stop - start).toNat).map
          (fun (k : ℕ) => start + (k : ℤ))).getD i.toNat 0 = start + i := by
      rw [List.getD_eq_getElem _ _ hlen, List.getElem_map, List.getElem_range,
        Int.toNat_of_nonneg h0]
    constructor
    · rw [CyRangeVectorMalloc.getitem, if_neg (by dsimp only; omega)]
      exact hget
    · rw [CyRangeVectorCpp.getitem]
      rw [if_neg ?hc]
      case hc =>
        dsimp only
        rw [List.length_map, List.length_range]
        omega
      rw [hget]

/-- Witness for C10: the vector built from `(3, 5)` returns `4 = 3 + 1` at
index 1 in both variants. -/
theorem cyrangevector_getitem_in_range_witness :
    CyRangeVectorMalloc.getitem ⟨2, [3, 4]⟩ 1 = 3 + 1
      ∧ CyRangeVectorCpp.getitem ⟨[3, 4]⟩ 1 = some (3 + 1) :=
  cyrangevector_getitem_in_range 3 5 ⟨2, [3, 4]⟩ ⟨[3, 4]⟩ 1
    (by decide) (by rfl) (by rfl) (by decide) (by decide)

end PythonHPC
